import Mathlib

/-!
Verification development for the docsync core (docsync/docsync.py).

The Python module scans source text for tagged comment blocks using the
regular expression `func_re`, indexes text by line-start offsets
(`_index_str`), locates a header insertion range (`search_hdr`), and renders
export text (`docexport`).  Below, each Python function is embedded as an
executable Lean definition over `List Char` / `String`.

The regular expression
  /\*+ \s+ \[(?:docimport|docexport)\s+\w*\] \s+ \*//\*\* .*? \*+/\n
  \w+ \s* [*]? \s* (?P<name>\w+) \( .*? \) ;?
(VERBOSE, DOTALL) is embedded as a deterministic matcher.  Backtracking in
the Python engine is deterministic for this pattern except in two places,
both modelled explicitly: the lazy doc-body `.*?` (shortest extension whose
continuation matches, `matchBody`), and the leading `\w+` of the signature,
which after a failed longest attempt retries with one fewer character
(`matchSig`); every greedy run (`\*+`, `\s+`, `\w*`) is followed by a
character disjoint from its class, so only the maximal run can succeed.
Word and whitespace characters are modelled at ASCII granularity.
-/

/-- Character class for `\*` runs. -/
def isStar (c : Char) : Bool := decide (c = '*')

/-- Character class `\w`: alphanumeric or underscore (ASCII model). -/
def isWordChar (c : Char) : Bool := c.isAlphanum || decide (c = '_')

/-- Character class `\s`: whitespace (ASCII model of Python `\s`). -/
def isSpaceChar (c : Char) : Bool :=
  decide (c = ' ') || decide (c = '\t') || decide (c = '\n') || decide (c = '\r') ||
  decide (c = '\x0b') || decide (c = '\x0c')

/-- Test whether `p` is an initial segment of `s`
(Python `str.startswith`). -/
def beginsWith : List Char → List Char → Bool
  | [], _ => true
  | _ :: _, [] => false
  | a :: as, b :: bs => decide (a = b) && beginsWith as bs

/-- Test whether some suffix of `s` begins with `p` (Python `in`). -/
def containsSub (p : List Char) : List Char → Bool
  | [] => beginsWith p []
  | c :: r => beginsWith p (c :: r) || containsSub p r

/-- Prepend a character to the first piece of a split. -/
def consHead (c : Char) : List (List Char) → List (List Char)
  | [] => [[c]]
  | l :: ls => (c :: l) :: ls

/-- Split on the line-feed character, keeping empty pieces
(Python `str.split('\n')`); always returns at least one piece. -/
def splitOnNl : List Char → List (List Char)
  | [] => [[]]
  | c :: r => if c = '\n' then [] :: splitOnNl r else consHead c (splitOnNl r)

/-- Join pieces with a separator (Python `sep.join`). -/
def joinWith (sep : List Char) : List (List Char) → List Char
  | [] => []
  | [l] => l
  | l :: ls => l ++ sep ++ joinWith sep ls

/-- Fuel-driven body of `replaceAll`; replaces leftmost non-overlapping
occurrences of `pat` by `rep` (Python `str.replace`). -/
def replaceAllF (pat rep : List Char) : Nat → List Char → List Char
  | _, [] => []
  | 0, s => s
  | fuel + 1, c :: r =>
    if pat ≠ [] ∧ beginsWith pat (c :: r) = true then
      rep ++ replaceAllF pat rep fuel ((c :: r).drop pat.length)
    else
      c :: replaceAllF pat rep fuel r

/-- Replace all leftmost non-overlapping occurrences of `pat` by `rep`
(Python `str.replace`). -/
def replaceAll (pat rep s : List Char) : List Char :=
  replaceAllF pat rep s.length s

/-- Consume a literal, or fail. -/
def dropLit (lit s : List Char) : Option (List Char) :=
  if beginsWith lit s then some (s.drop lit.length) else none

/-- The literal `docimport`. -/
def docimportLit : List Char := "docimport".toList

/-- The literal `docexport`. -/
def docexportLit : List Char := "docexport".toList

/-- The literal `*//**` separating the tag comment from the doc comment. -/
def tokLit : List Char := "*//**".toList

/-- The literal `#endif`. -/
def endifLit : List Char := "#endif".toList

/-- Optional `;` after the closing parenthesis (`;?`). -/
def dropSemi : List Char → List Char
  | [] => []
  | c :: r => if c = ';' then r else c :: r

/-- Lazily skip to the first `)`, then an optional `;` (the rule `.*?\);?`). -/
def matchParen : List Char → Option (List Char)
  | [] => none
  | c :: r => if c = ')' then some (dropSemi r) else matchParen r

/-- Require `(`, then the argument part `.*?\);?`, yielding name `nm`. -/
def matchParenOpen (s : List Char) (nm : List Char) : Option (String × List Char) :=
  match s with
  | c :: r => if c = '(' then (matchParen r).map (fun rr => (String.mk nm, rr)) else none
  | [] => none

/-- Consume an optional single star, then whitespace (the rule `[*]?\s*`). -/
def afterStarOpt : List Char → List Char
  | [] => []
  | c :: r => if c = '*' then r.dropWhile isSpaceChar else c :: r

/-- Tail of the signature after the return-type word:
`\s* [*]? \s* (?P<name>\w+) \( .*? \) ;?`. -/
def sigTail (s : List Char) : Option (String × List Char) :=
  let s2 := afterStarOpt (s.dropWhile isSpaceChar)
  let nm := s2.takeWhile isWordChar
  if nm.isEmpty then none
  else matchParenOpen (s2.dropWhile isWordChar) nm

/-- The signature rule `\w+ \s* [*]? \s* (?P<name>\w+) \( .*? \) ;?`.
The greedy `\w+` first takes the whole leading word run; if the remainder
fails, the engine retries with the run's last character as the captured
name, which succeeds exactly when `(` follows the run directly. -/
def matchSig (s : List Char) : Option (String × List Char) :=
  let w := s.takeWhile isWordChar
  if w.isEmpty then none
  else
    let rest := s.dropWhile isWordChar
    match sigTail rest with
    | some res => some res
    | none =>
      if 2 ≤ w.length then
        match w.getLast? with
        | some lc => matchParenOpen rest [lc]
        | none => none
      else none

/-- After the closing stars: `/` then a line feed, then the signature. -/
def matchSlashNl : List Char → Option (String × List Char)
  | c1 :: c2 :: r => if c1 = '/' ∧ c2 = '\n' then matchSig r else none
  | _ => none

/-- The doc-comment closer and signature: `\*+/\n` followed by the
signature rule. -/
def matchCloserSig (s : List Char) : Option (String × List Char) :=
  if (s.takeWhile isStar).isEmpty then none
  else matchSlashNl (s.dropWhile isStar)

/-- The lazy doc body `.*?` (DOTALL): the shortest extension after which
the closer and signature match. -/
def matchBody : List Char → Option (String × List Char)
  | [] => none
  | c :: r =>
    match matchCloserSig (c :: r) with
    | some res => some res
    | none => matchBody r

/-- After the tag's `]`: `\s+` then the literal `*//**`, then the body. -/
def matchPreTok (r7 : List Char) : Option (String × List Char) :=
  if (r7.takeWhile isSpaceChar).isEmpty then none
  else
    match dropLit tokLit (r7.dropWhile isSpaceChar) with
    | some r8 => matchBody r8
    | none => none

/-- Require `]` closing the tag. -/
def matchTagClose : List Char → Option (String × List Char)
  | c :: r7 => if c = ']' then matchPreTok r7 else none
  | [] => none

/-- After the tag word: `\s+ \w* \]` then the rest. -/
def matchTagRest (r4 : List Char) : Option (String × List Char) :=
  if (r4.takeWhile isSpaceChar).isEmpty then none
  else matchTagClose ((r4.dropWhile isSpaceChar).dropWhile isWordChar)

/-- The tag alternation `(?:docimport|docexport)` then the rest. -/
def matchTagWord (r3 : List Char) : Option (String × List Char) :=
  match dropLit docimportLit r3 with
  | some r4 => matchTagRest r4
  | none =>
    match dropLit docexportLit r3 with
    | some r4 => matchTagRest r4
    | none => none

/-- Require `[` opening the tag. -/
def matchBracket : List Char → Option (String × List Char)
  | c :: r3 => if c = '[' then matchTagWord r3 else none
  | [] => none

/-- After the opening stars: `\s+` then the bracketed tag. -/
def matchPreTag (r2 : List Char) : Option (String × List Char) :=
  if (r2.takeWhile isSpaceChar).isEmpty then none
  else matchBracket (r2.dropWhile isSpaceChar)

/-- After the leading `/`: `\*+` then the rest of the rule. -/
def matchOpenStars (r1 : List Char) : Option (String × List Char) :=
  if (r1.takeWhile isStar).isEmpty then none
  else matchPreTag (r1.dropWhile isStar)

/-- One anchored attempt of `func_re` at the head of `s`; on success
returns the captured name and the unconsumed suffix. -/
def matchAt (s : List Char) : Option (String × List Char) :=
  match s with
  | c :: r1 => if c = '/' then matchOpenStars r1 else none
  | [] => none

/-- Embedding of the dataclass `Func`: one matched block. -/
structure Func where
  name : String
  span : Nat × Nat
  substring : String
deriving DecidableEq, Repr

/-- The embedding of `finditer` over `func_re`: scan left to right, emit each non-empty
match and resume at its end; fuel bounds the scan by the text length. -/
def findAllF (fuel : Nat) (s : List Char) (pos : Nat) : List Func :=
  match fuel, s with
  | 0, _ => []
  | _, [] => []
  | fuel' + 1, c :: r =>
    match matchAt (c :: r) with
    | some (nm, rest) =>
      ⟨nm, (pos, pos + ((c :: r).length - rest.length)),
        String.mk ((c :: r).take ((c :: r).length - rest.length))⟩ ::
        findAllF fuel' rest (pos + ((c :: r).length - rest.length))
    | none => findAllF fuel' r (pos + 1)

/-- All matches of `func_re` in `s`, in left-to-right order. -/
def findAll (s : List Char) : List Func := findAllF s.length s 0

/-- Embedding of the `Docsync` session object.  `funcs` is `none` until
the first `search` call assigns it (in Python the attribute does not
exist before then). -/
structure Docsync where
  start : Option Nat
  end_ : Option Nat
  funcs : Option (List Func)
deriving DecidableEq

/-- Embedding of `Docsync.__init__`: `start` and `end` are `None`; `funcs` unset. -/
def Docsync.init : Docsync := ⟨none, none, none⟩

/-- The `self.start` update in `search`: set from the first match only when
still unset. -/
def searchStart (old : Option Nat) (ms : List Func) : Option Nat :=
  match old with
  | some s => some s
  | none => ms.head?.map (fun m => m.span.1)

/-- The `self.end` update in `search`: set from the last match when matches
were found, else left alone. -/
def searchEnd (old : Option Nat) (ms : List Func) : Option Nat :=
  match ms.getLast? with
  | some m => some m.span.2
  | none => old

/-- Embedding of `Docsync.search`: reset `funcs`, record matches, return their count. -/
def search (st : Docsync) (text : String) : Nat × Docsync :=
  let ms := findAll text.toList
  (ms.length, ⟨searchStart st.start ms, searchEnd st.end_ ms, some ms⟩)

/-- Builder for `_index_str`: one entry per line, keyed by the offset of
the line's first character. -/
def indexLines (off : Nat) (n : Nat) : List (List Char) → List (Nat × Nat × List Char)
  | [] => []
  | l :: ls => (off, n, l) :: indexLines (off + l.length + 1) (n + 1) ls

/-- Embedding of `Docsync._index_str`: offset-keyed line index of a text. -/
def index_str (text : String) : List (Nat × Nat × List Char) :=
  indexLines 0 0 (splitOnNl text.toList)

/-- The successive keys of `indexLines` (line-start offsets). -/
def idxKeys (off : Nat) : List (List Char) → List Nat
  | [] => []
  | l :: ls => off :: idxKeys (off + l.length + 1) ls

/-- Dictionary lookup by key (the keys of `index_str` are distinct). -/
def lookupEntry (idx : List (Nat × Nat × List Char)) (k : Nat) :
    Option (Nat × Nat × List Char) :=
  idx.find? (fun e => decide (e.1 = k))

/-- Embedding of `index_dict.get(k, (0, 0))[0]`: line number at key `k`, defaulting
to `0` when `k` is not a registered key. -/
def lookupLine (idx : List (Nat × Nat × List Char)) (k : Nat) : Nat :=
  match lookupEntry idx k with
  | some e => e.2.1
  | none => 0

/-- The reverse loop of `search_hdr`: walk lines in reverse order with a
descending counter, stopping at the first line that starts with
`#endif`; the `for`/`else` returns `(0, 0)` when none is found. -/
def endifScanAux : List (List Char) → Int → Int × Int
  | [], _ => (0, 0)
  | l :: rest, k =>
    if beginsWith endifLit l then (k - 1, k - 1) else endifScanAux rest (k - 1)

/-- Fallback of `search_hdr`: find the last `#endif` line at index `L`
and return `(L-1, L-1)`, or `(0, 0)` when there is none. -/
def endifScan (lines : List (List Char)) : Int × Int :=
  endifScanAux lines.reverse ((lines.length : Int) - 1)

/-- Embedding of `Docsync.search_hdr`: run `search` on the header, then translate the
recorded offsets to a line range, or fall back to the `#endif` scan.
The `error` branch mirrors the `TypeError` Python would raise on
`self.end + 1` with `end` unset; it is proved unreachable below. -/
def search_hdr (st : Docsync) (text : String) : Except Unit ((Int × Int) × Docsync) :=
  if (search st text).1 ≠ 0 then
    match (search st text).2.start, (search st text).2.end_ with
    | some s, some e =>
      Except.ok (((lookupLine (index_str text) s : Int),
        (lookupLine (index_str text) (e + 1) : Int)), (search st text).2)
    | _, _ => Except.error ()
  else
    Except.ok (endifScan (splitOnNl text.toList), (search st text).2)

/-- Per-record transformation in `docexport`:
`item.substring.replace("docimport", "docexport") + ';'`. -/
def docexportItem (f : Func) : List Char :=
  replaceAll docimportLit docexportLit f.substring.toList ++ [';']

/-- The blank-line separator `"\n\n"`. -/
def nlnl : List Char := ['\n', '\n']

/-- Result of `docexport`: a list of lines or a joined string. -/
inductive DocOut where
  | lines : List String → DocOut
  | str : String → DocOut
deriving DecidableEq

/-- Embedding of `Docsync.docexport`: transform each recorded block, join with a blank
line, and either split into lines or return the joined string.  On a
session whose `funcs` attribute was never assigned, Python raises
`AttributeError`; that is the `error` case. -/
def docexport (st : Docsync) (output_type : String) : Except Unit DocOut :=
  match st.funcs with
  | none => Except.error ()
  | some fs =>
    if output_type = "lines" then
      Except.ok (DocOut.lines
        ((splitOnNl (joinWith nlnl (fs.map docexportItem))).map String.mk))
    else
      Except.ok (DocOut.str (String.mk (joinWith nlnl (fs.map docexportItem))))

/-- The joined rendering of a record list. -/
def joinedOf (fs : List Func) : String :=
  String.mk (joinWith nlnl (fs.map docexportItem))

/-- The line rendering of a record list. -/
def linesOf (fs : List Func) : List String :=
  (splitOnNl (joinWith nlnl (fs.map docexportItem))).map String.mk

/-- Return `true` exactly on `Except.ok`. -/
def isOkE {ε α : Type} : Except ε α → Bool
  | Except.ok _ => true
  | Except.error _ => false

/-- A source text with one tagged block (spanning the whole text). -/
def exA : String := "/* [docimport f] *//** d */\nvoid f(x);"

/-- The text `exA` shifted right by one character. -/
def exB : String := "!/* [docimport f] *//** d */\nvoid f(x);"

/-- A header with an include guard and no tagged block. -/
def exHdr : String := "#ifndef A\n#define A\n#endif\n"

/-- A header whose only `#endif` line is line 0. -/
def exHdr0 : String := "#endif\nint x;"

/-- A header containing one tagged block between guard lines. -/
def exHdrM : String := "#ifndef A\n/* [docexport f] *//** d */\nvoid f(x);\n#endif\n"

/-- A record whose substring carries the `docexport` tag already. -/
def exGFunc : Func := ⟨"g", (0, 37), "/* [docexport g] *//** body */\nint g(y)"⟩

theorem dropSemi_sfx (r : List Char) : dropSemi r <:+ r := by
  cases r with
  | nil => exact List.suffix_refl _
  | cons c t =>
    unfold dropSemi
    by_cases h : c = ';'
    · simp [h]
    · simp [h]

theorem matchParen_sfx : ∀ s r, matchParen s = some r → r <:+ s := by
  intro s
  induction s with
  | nil => intro r h; simp [matchParen] at h
  | cons c t ih =>
    intro r h
    unfold matchParen at h
    by_cases hc : c = ')'
    · simp [hc] at h
      exact h ▸ (dropSemi_sfx t).trans (List.suffix_cons c t)
    · simp [hc] at h
      exact (ih r h).trans (List.suffix_cons c t)

theorem matchParenOpen_sfx (s nm : List Char) (n : String) (r : List Char)
    (h : matchParenOpen s nm = some (n, r)) : r <:+ s := by
  cases s with
  | nil => simp [matchParenOpen] at h
  | cons c t =>
    unfold matchParenOpen at h
    by_cases hc : c = '('
    · simp only [hc, if_true] at h
      cases hm : matchParen t with
      | none => rw [hm] at h; cases h
      | some rr =>
        rw [hm] at h
        simp only [Option.map_some'] at h
        cases h
        exact (matchParen_sfx t _ hm).trans (List.suffix_cons c t)
    · simp [hc] at h

theorem afterStarOpt_sfx (s : List Char) : afterStarOpt s <:+ s := by
  cases s with
  | nil => exact List.suffix_refl _
  | cons c t =>
    unfold afterStarOpt
    by_cases h : c = '*'
    · simpa [h] using (List.dropWhile_suffix isSpaceChar).trans (List.suffix_cons c t)
    · simp [h]

theorem sigTail_sfx (s : List Char) (n : String) (r : List Char)
    (h : sigTail s = some (n, r)) : r <:+ s := by
  unfold sigTail at h
  by_cases he : ((afterStarOpt (s.dropWhile isSpaceChar)).takeWhile isWordChar).isEmpty
  · simp [he] at h
  · simp only [he, if_false] at h
    refine (matchParenOpen_sfx _ _ n r h).trans ?_
    exact (List.dropWhile_suffix isWordChar).trans
      ((afterStarOpt_sfx _).trans (List.dropWhile_suffix isSpaceChar))

theorem matchSig_sfx (s : List Char) (n : String) (r : List Char)
    (h : matchSig s = some (n, r)) : r <:+ s := by
  unfold matchSig at h
  by_cases he : (s.takeWhile isWordChar).isEmpty
  · simp [he] at h
  · simp only [he, if_false] at h
    cases ht : sigTail (s.dropWhile isWordChar) with
    | some res =>
      rw [ht] at h
      cases h
      exact (sigTail_sfx _ n r ht).trans (List.dropWhile_suffix isWordChar)
    | none =>
      rw [ht] at h
      by_cases h2 : 2 ≤ (s.takeWhile isWordChar).length
      · simp only [h2, if_true] at h
        cases hl : (s.takeWhile isWordChar).getLast? with
        | some lc =>
          rw [hl] at h
          exact (matchParenOpen_sfx _ _ n r h).trans (List.dropWhile_suffix isWordChar)
        | none => rw [hl] at h; cases h
      · simp [h2] at h

theorem matchSlashNl_sfx (s : List Char) (n : String) (r : List Char)
    (h : matchSlashNl s = some (n, r)) : r <:+ s := by
  match s with
  | [] => simp [matchSlashNl] at h
  | [c] => simp [matchSlashNl] at h
  | c1 :: c2 :: t =>
    unfold matchSlashNl at h
    by_cases hc : c1 = '/' ∧ c2 = '\n'
    · simp only [hc, if_true] at h
      exact ((matchSig_sfx t n r h).trans (List.suffix_cons c2 t)).trans
        (List.suffix_cons c1 (c2 :: t))
    · simp [hc] at h

theorem matchCloserSig_sfx (s : List Char) (n : String) (r : List Char)
    (h : matchCloserSig s = some (n, r)) : r <:+ s := by
  unfold matchCloserSig at h
  by_cases he : (s.takeWhile isStar).isEmpty
  · simp [he] at h
  · simp only [he, if_false] at h
    exact (matchSlashNl_sfx _ n r h).trans (List.dropWhile_suffix isStar)

theorem matchBody_sfx : ∀ (s : List Char) (n : String) (r : List Char),
    matchBody s = some (n, r) → r <:+ s := by
  intro s
  induction s with
  | nil => intro n r h; simp [matchBody] at h
  | cons c t ih =>
    intro n r h
    unfold matchBody at h
    cases hm : matchCloserSig (c :: t) with
    | some res =>
      rw [hm] at h
      cases h
      exact matchCloserSig_sfx _ n r hm
    | none =>
      rw [hm] at h
      exact (ih n r h).trans (List.suffix_cons c t)

theorem dropLit_sfx (lit s r : List Char) (h : dropLit lit s = some r) : r <:+ s := by
  unfold dropLit at h
  by_cases hb : beginsWith lit s = true
  · simp [hb] at h
    exact h ▸ List.drop_suffix lit.length s
  · simp [hb] at h

theorem matchPreTok_sfx (s : List Char) (n : String) (r : List Char)
    (h : matchPreTok s = some (n, r)) : r <:+ s := by
  unfold matchPreTok at h
  by_cases he : (s.takeWhile isSpaceChar).isEmpty
  · simp [he] at h
  · simp only [he, if_false] at h
    cases hd : dropLit tokLit (s.dropWhile isSpaceChar) with
    | some r8 =>
      rw [hd] at h
      exact ((matchBody_sfx r8 n r h).trans (dropLit_sfx _ _ _ hd)).trans
        (List.dropWhile_suffix isSpaceChar)
    | none => rw [hd] at h; cases h

theorem matchTagClose_sfx (s : List Char) (n : String) (r : List Char)
    (h : matchTagClose s = some (n, r)) : r <:+ s := by
  cases s with
  | nil => simp [matchTagClose] at h
  | cons c t =>
    unfold matchTagClose at h
    by_cases hc : c = ']'
    · simp only [hc, if_true] at h
      exact (matchPreTok_sfx t n r h).trans (List.suffix_cons c t)
    · simp [hc] at h

theorem matchTagRest_sfx (s : List Char) (n : String) (r : List Char)
    (h : matchTagRest s = some (n, r)) : r <:+ s := by
  unfold matchTagRest at h
  by_cases he : (s.takeWhile isSpaceChar).isEmpty
  · simp [he] at h
  · simp only [he, if_false] at h
    exact (matchTagClose_sfx _ n r h).trans
      ((List.dropWhile_suffix isWordChar).trans (List.dropWhile_suffix isSpaceChar))

theorem matchTagWord_sfx (s : List Char) (n : String) (r : List Char)
    (h : matchTagWord s = some (n, r)) : r <:+ s := by
  unfold matchTagWord at h
  cases h1 : dropLit docimportLit s with
  | some r4 =>
    rw [h1] at h
    exact (matchTagRest_sfx r4 n r h).trans (dropLit_sfx _ _ _ h1)
  | none =>
    rw [h1] at h
    cases h2 : dropLit docexportLit s with
    | some r4 =>
      rw [h2] at h
      exact (matchTagRest_sfx r4 n r h).trans (dropLit_sfx _ _ _ h2)
    | none => rw [h2] at h; cases h

theorem matchBracket_sfx (s : List Char) (n : String) (r : List Char)
    (h : matchBracket s = some (n, r)) : r <:+ s := by
  cases s with
  | nil => simp [matchBracket] at h
  | cons c t =>
    unfold matchBracket at h
    by_cases hc : c = '['
    · simp only [hc, if_true] at h
      exact (matchTagWord_sfx t n r h).trans (List.suffix_cons c t)
    · simp [hc] at h

theorem matchPreTag_sfx (s : List Char) (n : String) (r : List Char)
    (h : matchPreTag s = some (n, r)) : r <:+ s := by
  unfold matchPreTag at h
  by_cases he : (s.takeWhile isSpaceChar).isEmpty
  · simp [he] at h
  · simp only [he, if_false] at h
    exact (matchBracket_sfx _ n r h).trans (List.dropWhile_suffix isSpaceChar)

theorem matchOpenStars_sfx (s : List Char) (n : String) (r : List Char)
    (h : matchOpenStars s = some (n, r)) : r <:+ s := by
  unfold matchOpenStars at h
  by_cases he : (s.takeWhile isStar).isEmpty
  · simp [he] at h
  · simp only [he, if_false] at h
    exact (matchPreTag_sfx _ n r h).trans (List.dropWhile_suffix isStar)

/-- A successful anchored match consumes at least one character, and the
unconsumed part is a suffix of the input. -/
theorem matchAt_sfx_lt (s : List Char) (n : String) (r : List Char)
    (h : matchAt s = some (n, r)) : r <:+ s ∧ r.length < s.length := by
  cases s with
  | nil => simp [matchAt] at h
  | cons c t =>
    unfold matchAt at h
    by_cases hc : c = '/'
    · simp only [hc, if_true] at h
      have hs := matchOpenStars_sfx t n r h
      exact ⟨hs.trans (List.suffix_cons c t), by
        have := hs.length_le
        simp only [List.length_cons]
        omega⟩
    · simp [hc] at h

/-- Recover the exact drop position from a suffix. -/
theorem sfx_drop_eq {l r : List Char} (h : r <:+ l) :
    l.drop (l.length - r.length) = r := by
  obtain ⟨t, rfl⟩ := h
  have hlen : (t ++ r).length - r.length = t.length := by
    simp [List.length_append]
  rw [hlen, List.drop_left]

/-- Soundness of the `finditer` loop: on the suffix of `orig` at `pos`
with sufficient fuel, the records found are pairwise ordered and
non-overlapping, have non-empty in-bounds spans, and each carries the
name, span and substring of an anchored match of the rule. -/
theorem findAllF_sound : ∀ (fuel : Nat) (orig : List Char) (pos : Nat),
    (orig.drop pos).length ≤ fuel →
    List.Pairwise (fun a b => a.span.2 ≤ b.span.1) (findAllF fuel (orig.drop pos) pos) ∧
    ∀ f ∈ findAllF fuel (orig.drop pos) pos,
      pos ≤ f.span.1 ∧ f.span.1 < f.span.2 ∧ f.span.2 ≤ orig.length ∧
      matchAt (orig.drop f.span.1) = some (f.name, orig.drop f.span.2) ∧
      f.substring = String.mk ((orig.drop f.span.1).take (f.span.2 - f.span.1)) := by
  intro fuel
  induction fuel with
  | zero =>
    intro orig pos h
    have he : orig.drop pos = [] := List.eq_nil_of_length_eq_zero (Nat.le_zero.mp h)
    rw [he]
    exact ⟨by simp [findAllF], by simp [findAllF]⟩
  | succ fuel ih =>
    intro orig pos h
    cases hs : orig.drop pos with
    | nil => exact ⟨by simp [findAllF], by simp [findAllF]⟩
    | cons c r =>
      rw [hs] at h
      cases hm : matchAt (c :: r) with
      | none =>
        have hr : orig.drop (pos + 1) = r := by
          have h1 := List.drop_drop 1 pos orig
          rw [hs] at h1
          simpa using h1.symm
        have hlen : r.length ≤ fuel := by
          simp only [List.length_cons] at h; omega
        have IH := ih orig (pos + 1) (by rw [hr]; exact hlen)
        rw [hr] at IH
        have hfind : findAllF (fuel + 1) (c :: r) pos = findAllF fuel r (pos + 1) := by
          simp [findAllF, hm]
        rw [hfind]
        exact ⟨IH.1, fun f hf => ⟨by have := (IH.2 f hf).1; omega, (IH.2 f hf).2⟩⟩
      | some res =>
        obtain ⟨nm, rest⟩ := res
        have hsl := matchAt_sfx_lt _ nm rest hm
        set len := (c :: r).length - rest.length with hlendef
        have hdrop : (c :: r).drop len = rest := sfx_drop_eq hsl.1
        have hrest : orig.drop (pos + len) = rest := by
          have h1 := List.drop_drop len pos orig
          rw [hs] at h1
          rw [← h1]
          exact hdrop
        have hposlt : pos < orig.length := by
          by_contra hge
          push_neg at hge
          have hnil : orig.drop pos = [] := List.drop_eq_nil_iff.mpr hge
          rw [hs] at hnil
          cases hnil
        have hslen : (c :: r).length = orig.length - pos := by
          rw [← hs, List.length_drop]
        have hlen1 : 1 ≤ len := by
          have := hsl.2
          omega
        have hlen2 : len ≤ (c :: r).length := Nat.sub_le _ _
        have hfind : findAllF (fuel + 1) (c :: r) pos =
            ⟨nm, (pos, pos + len), String.mk ((c :: r).take len)⟩ ::
              findAllF fuel rest (pos + len) := by
          simp only [findAllF, hm]
        have hfuel2 : rest.length ≤ fuel := by
          have h2 := hsl.2
          simp only [List.length_cons] at h h2
          omega
        have IH := ih orig (pos + len) (by rw [hrest]; exact hfuel2)
        rw [hrest] at IH
        rw [hfind]
        constructor
        · rw [List.pairwise_cons]
          refine ⟨fun b hb => ?_, IH.1⟩
          have := (IH.2 b hb).1
          simpa using this
        · intro f hf
          rcases List.mem_cons.mp hf with heq | hmem
          · subst heq
            refine ⟨Nat.le_refl pos, ?_, ?_, ?_, ?_⟩
            · show pos < pos + len
              omega
            · show pos + len ≤ orig.length
              rw [hslen] at hlen2
              omega
            · show matchAt (orig.drop pos) = some (nm, orig.drop (pos + len))
              rw [hs, hrest]
              exact hm
            · show String.mk ((c :: r).take len) = _
              rw [hs]
              simp [Nat.add_sub_cancel_left]
          · have hh := IH.2 f hmem
            exact ⟨by have := hh.1; omega, hh.2.1, hh.2.2.1, hh.2.2.2.1, hh.2.2.2.2⟩

/-- Soundness of `findAll` on a whole text. -/
theorem findAll_sound (s : List Char) :
    List.Pairwise (fun a b => a.span.2 ≤ b.span.1) (findAll s) ∧
    ∀ f ∈ findAll s, f.span.1 < f.span.2 ∧ f.span.2 ≤ s.length ∧
      matchAt (s.drop f.span.1) = some (f.name, s.drop f.span.2) ∧
      f.substring = String.mk ((s.drop f.span.1).take (f.span.2 - f.span.1)) := by
  have h := findAllF_sound s.length s 0 (by simp)
  rw [List.drop_zero] at h
  unfold findAll
  exact ⟨h.1, fun f hf =>
    ⟨(h.2 f hf).2.1, (h.2 f hf).2.2.1, (h.2 f hf).2.2.2.1, (h.2 f hf).2.2.2.2⟩⟩

theorem splitOnNl_cons (c : Char) (r : List Char) :
    splitOnNl (c :: r) =
      if c = '\n' then [] :: splitOnNl r else consHead c (splitOnNl r) := rfl

theorem splitOnNl_ne_nil : ∀ l : List Char, splitOnNl l ≠ [] := by
  intro l
  cases l with
  | nil => simp [splitOnNl]
  | cons c r =>
    rw [splitOnNl_cons]
    by_cases h : c = '\n'
    · simp [h]
    · simp only [h, if_false]
      cases splitOnNl r <;> simp [consHead]

/-- Splitting on the line feed and joining with it reconstructs the text. -/
theorem join_split : ∀ s : List Char, joinWith ['\n'] (splitOnNl s) = s := by
  intro s
  induction s with
  | nil => rfl
  | cons c r ih =>
    rw [splitOnNl_cons]
    by_cases h : c = '\n'
    · subst h
      rw [if_pos rfl]
      cases hsp : splitOnNl r with
      | nil => exact absurd hsp (splitOnNl_ne_nil r)
      | cons l ls =>
        rw [hsp] at ih
        rw [← ih]
        rfl
    · rw [if_neg h]
      cases hsp : splitOnNl r with
      | nil => exact absurd hsp (splitOnNl_ne_nil r)
      | cons l ls =>
        rw [hsp] at ih
        show joinWith ['\n'] ((c :: l) :: ls) = c :: r
        cases ls with
        | nil =>
          simp only [joinWith] at ih ⊢
          rw [ih]
        | cons l2 ls2 =>
          show (c :: l) ++ ['\n'] ++ joinWith ['\n'] (l2 :: ls2) = c :: r
          rw [← ih]
          rfl

theorem toList_mk (l : List Char) : (String.mk l).toList = l := rfl

theorem beginsWith_false_of_contains_false {p s : List Char}
    (h : containsSub p s = false) : beginsWith p s = false := by
  cases s with
  | nil => simpa [containsSub] using h
  | cons c r =>
    simp only [containsSub, Bool.or_eq_false_iff] at h
    exact h.1

theorem containsSub_tail_false {p : List Char} {c : Char} {r : List Char}
    (h : containsSub p (c :: r) = false) : containsSub p r = false := by
  simp only [containsSub, Bool.or_eq_false_iff] at h
  exact h.2

theorem replaceAllF_id : ∀ (fuel : Nat) (pat rep s : List Char),
    containsSub pat s = false → s.length ≤ fuel →
    replaceAllF pat rep fuel s = s := by
  intro fuel
  induction fuel with
  | zero =>
    intro pat rep s h hl
    have he : s = [] := List.eq_nil_of_length_eq_zero (Nat.le_zero.mp hl)
    subst he
    rfl
  | succ fuel ih =>
    intro pat rep s h hl
    cases s with
    | nil => rfl
    | cons c r =>
      have hb : beginsWith pat (c :: r) = false := beginsWith_false_of_contains_false h
      unfold replaceAllF
      rw [if_neg (by simp [hb])]
      rw [ih pat rep r (containsSub_tail_false h) (by simp at hl; omega)]

/-- A text containing no occurrence of `pat` is left unchanged by
`replaceAll`. -/
theorem replaceAll_id (pat rep s : List Char) (h : containsSub pat s = false) :
    replaceAll pat rep s = s :=
  replaceAllF_id s.length pat rep s h (Nat.le_refl _)

theorem indexLines_length : ∀ (ls : List (List Char)) (off n : Nat),
    (indexLines off n ls).length = ls.length := by
  intro ls
  induction ls with
  | nil => intro off n; rfl
  | cons l ls ih => intro off n; simp [indexLines, ih]

theorem indexLines_getD : ∀ (ls : List (List Char)) (off n i : Nat), i < ls.length →
    ((indexLines off n ls).getD i (0, 0, [])).2.1 = n + i ∧
    ((indexLines off n ls).getD i (0, 0, [])).2.2 = ls.getD i [] := by
  intro ls
  induction ls with
  | nil => intro off n i h; simp at h
  | cons l ls ih =>
    intro off n i h
    cases i with
    | zero => simp [indexLines]
    | succ i =>
      simp only [indexLines, List.getD_cons_succ]
      have hh := ih (off + l.length + 1) (n + 1) i (by simp at h; omega)
      exact ⟨by rw [hh.1]; omega, hh.2⟩

theorem indexLines_key0 : ∀ (ls : List (List Char)) (off n : Nat), ls ≠ [] →
    ((indexLines off n ls).getD 0 (0, 0, [])).1 = off := by
  intro ls off n h
  cases ls with
  | nil => exact absurd rfl h
  | cons l ls => simp [indexLines]

theorem indexLines_keyrec : ∀ (ls : List (List Char)) (off n i : Nat),
    i + 1 < ls.length →
    ((indexLines off n ls).getD (i + 1) (0, 0, [])).1 =
      ((indexLines off n ls).getD i (0, 0, [])).1 + (ls.getD i []).length + 1 := by
  intro ls
  induction ls with
  | nil => intro off n i h; simp at h
  | cons l ls ih =>
    intro off n i h
    cases i with
    | zero =>
      simp only [indexLines, List.getD_cons_succ, List.getD_cons_zero]
      have hne : ls ≠ [] := by
        intro he
        rw [he] at h
        simp at h
      rw [indexLines_key0 ls (off + l.length + 1) (n + 1) hne]
    | succ i =>
      simp only [indexLines, List.getD_cons_succ]
      exact ih (off + l.length + 1) (n + 1) i (by simp at h; omega)

theorem indexLines_keys : ∀ (ls : List (List Char)) (off n : Nat),
    (indexLines off n ls).map (fun e => e.1) = idxKeys off ls := by
  intro ls
  induction ls with
  | nil => intro off n; rfl
  | cons l ls ih => intro off n; simp [indexLines, idxKeys, ih]

/-- For a text that is empty or ends with a line feed, the offset one past
its final character is a registered line-start key of the index. -/
theorem idxKeys_cover : ∀ (l : List Char) (off : Nat),
    l = [] ∨ l.getLast? = some '\n' →
    (off + l.length) ∈ idxKeys off (splitOnNl l) := by
  intro l
  induction l with
  | nil => intro off h; simp [splitOnNl, idxKeys]
  | cons c r ih =>
    intro off h
    rcases h with h | h
    · cases h
    · by_cases hc : c = '\n'
      · subst hc
        cases r with
        | nil => simp [splitOnNl, idxKeys]
        | cons c2 r2 =>
          have h' : (c2 :: r2).getLast? = some '\n' := by
            rw [← List.getLast?_cons_cons]
            exact h
          have ihm := ih (off + 1) (Or.inr h')
          rw [splitOnNl_cons, if_pos rfl]
          show off + ((c2 :: r2).length + 1) ∈
            off :: idxKeys (off + 0 + 1) (splitOnNl (c2 :: r2))
          refine List.mem_cons_of_mem _ ?_
          have e1 : off + ((c2 :: r2).length + 1) = off + 1 + (c2 :: r2).length := by
            omega
          have e2 : off + 0 + 1 = off + 1 := by omega
          rw [e1, e2]
          exact ihm
      · cases r with
        | nil =>
          simp only [List.getLast?_singleton, Option.some.injEq] at h
          exact absurd h hc
        | cons c2 r2 =>
          have h' : (c2 :: r2).getLast? = some '\n' := by
            rw [← List.getLast?_cons_cons]
            exact h
          cases hsp : splitOnNl (c2 :: r2) with
          | nil => exact absurd hsp (splitOnNl_ne_nil _)
          | cons l ls =>
            have ihm := ih (off + 1) (Or.inr h')
            rw [hsp] at ihm
            simp only [idxKeys] at ihm
            rcases List.mem_cons.mp ihm with he | ht
            · exfalso
              simp only [List.length_cons] at he
              omega
            · rw [splitOnNl_cons, if_neg hc, hsp]
              show off + ((c2 :: r2).length + 1) ∈
                off :: idxKeys (off + (c :: l).length + 1) ls
              refine List.mem_cons_of_mem _ ?_
              have e1 : off + ((c2 :: r2).length + 1) = off + 1 + (c2 :: r2).length := by
                omega
              have e2 : off + (c :: l).length + 1 = off + 1 + l.length + 1 := by
                simp only [List.length_cons]
                omega
              rw [e1, e2]
              exact ht

theorem getD_reverse (l : List (List Char)) (i : Nat) (h : i < l.length) :
    l.reverse.getD i [] = l.getD (l.length - 1 - i) [] := by
  rw [List.getD_eq_getElem _ _ (by simpa using h),
    List.getD_eq_getElem _ _ (by omega : l.length - 1 - i < l.length)]
  exact List.getElem_reverse _

theorem endifScanAux_none : ∀ (rl : List (List Char)) (k : Int),
    (∀ l ∈ rl, beginsWith endifLit l = false) → endifScanAux rl k = (0, 0) := by
  intro rl
  induction rl with
  | nil => intro k _; rfl
  | cons l rest ih =>
    intro k h
    have hl := h l (List.mem_cons_self l rest)
    simp only [endifScanAux, hl, Bool.false_eq_true, if_false]
    exact ih (k - 1) (fun l' hl' => h l' (List.mem_cons_of_mem _ hl'))

theorem endifScanAux_first : ∀ (rl : List (List Char)) (k : Int) (i : Nat),
    i < rl.length → beginsWith endifLit (rl.getD i []) = true →
    (∀ j, j < i → beginsWith endifLit (rl.getD j []) = false) →
    endifScanAux rl k = (k - i - 1, k - i - 1) := by
  intro rl
  induction rl with
  | nil => intro k i h _ _; simp at h
  | cons l rest ih =>
    intro k i hi hhit hbefore
    cases i with
    | zero =>
      simp only [List.getD_cons_zero] at hhit
      simp only [endifScanAux, hhit, if_true]
      norm_num
    | succ i =>
      have h0 := hbefore 0 (Nat.succ_pos i)
      simp only [List.getD_cons_zero] at h0
      simp only [endifScanAux, h0, Bool.false_eq_true, if_false]
      have hrec := ih (k - 1) i (by simp at hi; omega)
        (by simpa using hhit)
        (fun j hj => by
          have hb := hbefore (j + 1) (by omega)
          simpa using hb)
      rw [hrec]
      have e : k - 1 - (i : Int) - 1 = k - ((i + 1 : Nat) : Int) - 1 := by
        push_cast
        ring
      rw [e]

/-- The fallback scan returns `(L-1, L-1)` for the last `#endif` line `L`. -/
theorem endifScan_last (lines : List (List Char)) (L : Nat)
    (hL : L < lines.length)
    (hhit : beginsWith endifLit (lines.getD L []) = true)
    (hafter : ∀ j, L < j → j < lines.length →
      beginsWith endifLit (lines.getD j []) = false) :
    endifScan lines = ((L : Int) - 1, (L : Int) - 1) := by
  unfold endifScan
  have hlen : lines.reverse.length = lines.length := List.length_reverse lines
  have hi : lines.length - 1 - L < lines.reverse.length := by omega
  have hkey : lines.reverse.getD (lines.length - 1 - L) [] = lines.getD L [] := by
    rw [getD_reverse _ _ (by omega)]
    congr 1
    omega
  have hfirst := endifScanAux_first lines.reverse ((lines.length : Int) - 1)
      (lines.length - 1 - L) hi (by rw [hkey]; exact hhit)
      (fun j hj => by
        rw [getD_reverse _ _ (by omega)]
        exact hafter (lines.length - 1 - j) (by omega) (by omega))
  rw [hfirst]
  have e : (lines.length : Int) - 1 - ((lines.length - 1 - L : Nat) : Int) - 1 =
      (L : Int) - 1 := by
    have hc : ((lines.length - 1 - L : Nat) : Int) = (lines.length : Int) - 1 - L := by
      omega
    rw [hc]
    ring
  rw [e]

/-- The fallback scan returns `(0, 0)` when no line starts with `#endif`. -/
theorem endifScan_zero (lines : List (List Char))
    (h : ∀ l ∈ lines, beginsWith endifLit l = false) :
    endifScan lines = (0, 0) :=
  endifScanAux_none _ _ (fun l hl => h l (List.mem_reverse.mp hl))

theorem search_count (st : Docsync) (text : String) :
    (search st text).1 = (findAll text.toList).length := rfl

theorem search_funcs (st : Docsync) (text : String) :
    (search st text).2.funcs = some (findAll text.toList) := rfl

/-- When the scan finds matches, the session's recorded offsets are set. -/
theorem search_offsets_set (st : Docsync) (text : String)
    (h : findAll text.toList ≠ []) :
    ∃ s e, (search st text).2.start = some s ∧ (search st text).2.end_ = some e := by
  cases hm : findAll text.toList with
  | nil => exact absurd hm h
  | cons m ms =>
    obtain ⟨u, hu⟩ : ∃ u, (m :: ms).getLast? = some u := by
      cases hgl : (m :: ms).getLast? with
      | some u => exact ⟨u, rfl⟩
      | none =>
        rw [List.getLast?_eq_none_iff] at hgl
        cases hgl
    have hstart : (search st text).2.start = searchStart st.start (m :: ms) := by
      show searchStart st.start (findAll text.toList) = _
      rw [hm]
    have hend : (search st text).2.end_ = searchEnd st.end_ (m :: ms) := by
      show searchEnd st.end_ (findAll text.toList) = _
      rw [hm]
    cases hst : st.start with
    | some s0 =>
      refine ⟨s0, u.span.2, ?_, ?_⟩
      · rw [hstart]; simp [searchStart, hst]
      · rw [hend]; simp [searchEnd, hu]
    | none =>
      refine ⟨m.span.1, u.span.2, ?_, ?_⟩
      · rw [hstart]; simp [searchStart, hst]
      · rw [hend]; simp [searchEnd, hu]

theorem lookupLine_eq (idx : List (Nat × Nat × List Char)) (k : Nat) :
    (lookupLine idx k : Int) = ((lookupEntry idx k).map (fun e => (e.2.1 : Int))).getD 0 := by
  unfold lookupLine
  cases h : lookupEntry idx k <;> simp [h]

theorem lookupEntry_ne_none_of_mem_keys (idx : List (Nat × Nat × List Char)) (k : Nat)
    (h : k ∈ idx.map (fun e => e.1)) : lookupEntry idx k ≠ none := by
  intro hn
  unfold lookupEntry at hn
  rw [List.find?_eq_none] at hn
  obtain ⟨e, he, hek⟩ := List.mem_map.mp h
  have := hn e he
  simp [hek] at this

/-- Unfolding of `search_hdr` on the match branch. -/
theorem search_hdr_pos (st : Docsync) (text : String) (s e : Nat)
    (h : (search st text).1 ≠ 0)
    (hs : (search st text).2.start = some s)
    (he : (search st text).2.end_ = some e) :
    search_hdr st text = Except.ok
      (((lookupLine (index_str text) s : Int),
        (lookupLine (index_str text) (e + 1) : Int)), (search st text).2) := by
  unfold search_hdr
  rw [if_pos h, hs, he]

/-- Unfolding of `search_hdr` on the fallback branch. -/
theorem search_hdr_zero (st : Docsync) (text : String)
    (h : (search st text).1 = 0) :
    search_hdr st text =
      Except.ok (endifScan (splitOnNl text.toList), (search st text).2) := by
  unfold search_hdr
  rw [if_neg (by simp [h])]

/-- C1: when the matcher finds at least one tagged block in the header,
`search_hdr` returns the line numbers that the index assigns to the
session's recorded start offset and to the recorded end offset plus one,
each lookup defaulting to `0` when its offset is not a registered
line-start key. -/
theorem claim_C1_insertion_range (text : String) (st : Docsync)
    (h : (search st text).1 ≠ 0) :
    ∃ s e, (search st text).2.start = some s ∧ (search st text).2.end_ = some e ∧
      search_hdr st text = Except.ok
        ((((lookupEntry (index_str text) s).map (fun en => (en.2.1 : Int))).getD 0,
          ((lookupEntry (index_str text) (e + 1)).map (fun en => (en.2.1 : Int))).getD 0),
         (search st text).2) := by
  have hne : findAll text.toList ≠ [] := by
    intro hnil
    exact h (by rw [search_count, hnil]; rfl)
  obtain ⟨s, e, hs, he⟩ := search_offsets_set st text hne
  refine ⟨s, e, hs, he, ?_⟩
  rw [search_hdr_pos st text s e h hs he, lookupLine_eq, lookupLine_eq]

/-- Witness for C1 on a header whose tagged block spans lines 1-3. -/
theorem claim_C1_witness :
    (search Docsync.init exHdrM).1 ≠ 0 ∧
    (∃ s e, (search Docsync.init exHdrM).2.start = some s ∧
      (search Docsync.init exHdrM).2.end_ = some e ∧
      search_hdr Docsync.init exHdrM = Except.ok
        ((((lookupEntry (index_str exHdrM) s).map (fun en => (en.2.1 : Int))).getD 0,
          ((lookupEntry (index_str exHdrM) (e + 1)).map (fun en => (en.2.1 : Int))).getD 0),
         (search Docsync.init exHdrM).2)) :=
  ⟨by decide, claim_C1_insertion_range exHdrM Docsync.init (by decide)⟩

/-- C2: `search` returns the number of well-formed tagged blocks (the
matches of the rule), records them in order with pairwise non-overlapping,
non-empty, in-bounds spans, and each record carries the captured name and
the exact matched substring. -/
theorem claim_C2_scan (text : String) (st : Docsync) :
    (search st text).1 = (findAll text.toList).length ∧
    (search st text).2.funcs = some (findAll text.toList) ∧
    List.Pairwise (fun a b => a.span.2 ≤ b.span.1) (findAll text.toList) ∧
    ∀ f ∈ findAll text.toList,
      f.span.1 < f.span.2 ∧ f.span.2 ≤ text.toList.length ∧
      matchAt (text.toList.drop f.span.1) = some (f.name, text.toList.drop f.span.2) ∧
      f.substring = String.mk ((text.toList.drop f.span.1).take (f.span.2 - f.span.1)) :=
  ⟨rfl, rfl, (findAll_sound text.toList).1, (findAll_sound text.toList).2⟩

/-- Witness for C2 on the one-block text `exA`. -/
theorem claim_C2_witness :
    (⟨"f", (0, 38), exA⟩ : Func) ∈ findAll exA.toList ∧
    ((0 : Nat) < 38 ∧ (38 : Nat) ≤ exA.toList.length ∧
      matchAt (exA.toList.drop 0) = some ("f", exA.toList.drop 38) ∧
      exA = String.mk ((exA.toList.drop 0).take (38 - 0))) :=
  ⟨by decide, (claim_C2_scan exA Docsync.init).2.2.2 ⟨"f", (0, 38), exA⟩ (by decide)⟩

/-- C3: when the matcher finds no tagged block, `search` returns 0 and
`search_hdr` falls back to the `#endif` scan: `(L-1, L-1)` for the last
line `L` starting with `#endif`, and `(0, 0)` when there is none. -/
theorem claim_C3_fallback (text : String) (st : Docsync)
    (h : findAll text.toList = []) :
    (search st text).1 = 0 ∧
    search_hdr st text =
      Except.ok (endifScan (splitOnNl text.toList), (search st text).2) ∧
    (∀ L, L < (splitOnNl text.toList).length →
      beginsWith endifLit ((splitOnNl text.toList).getD L []) = true →
      (∀ j, L < j → j < (splitOnNl text.toList).length →
        beginsWith endifLit ((splitOnNl text.toList).getD j []) = false) →
      endifScan (splitOnNl text.toList) = ((L : Int) - 1, (L : Int) - 1)) ∧
    ((∀ l ∈ splitOnNl text.toList, beginsWith endifLit l = false) →
      endifScan (splitOnNl text.toList) = (0, 0)) := by
  have hc : (search st text).1 = 0 := by rw [search_count, h]; rfl
  exact ⟨hc, search_hdr_zero st text hc,
    fun L hL hh ha => endifScan_last _ L hL hh ha,
    fun hn => endifScan_zero _ hn⟩

/-- Witness for C3 on a guard-only header whose `#endif` is line 2. -/
theorem claim_C3_witness :
    findAll exHdr.toList = [] ∧
    endifScan (splitOnNl exHdr.toList) = ((2 : Int) - 1, (2 : Int) - 1) :=
  ⟨by decide, (claim_C3_fallback exHdr Docsync.init (by decide)).2.2.1 2
    (by decide) (by decide)
    (fun j hj1 hj2 => by
      have h4 : (splitOnNl exHdr.toList).length = 4 := by decide
      rw [h4] at hj2
      have hj : j = 3 := by omega
      subst hj
      decide)⟩

/-- C10: with no tagged block and the last `#endif` line at index 0,
`search_hdr` returns `(-1, -1)`. -/
theorem claim_C10_endif_line0 (text : String) (st : Docsync)
    (h : findAll text.toList = [])
    (h0 : beginsWith endifLit ((splitOnNl text.toList).getD 0 []) = true)
    (h1 : ∀ j, 0 < j → j < (splitOnNl text.toList).length →
      beginsWith endifLit ((splitOnNl text.toList).getD j []) = false) :
    search_hdr st text = Except.ok ((-1, -1), (search st text).2) := by
  have hlen : 0 < (splitOnNl text.toList).length := by
    cases hsp : splitOnNl text.toList with
    | nil => exact absurd hsp (splitOnNl_ne_nil _)
    | cons a b => simp
  have hc : (search st text).1 = 0 := by rw [search_count, h]; rfl
  rw [search_hdr_zero st text hc, endifScan_last (splitOnNl text.toList) 0 hlen h0 h1]
  norm_num

/-- Witness for C10 on a header whose first line is its only `#endif`. -/
theorem claim_C10_witness :
    findAll exHdr0.toList = [] ∧
    search_hdr Docsync.init exHdr0 =
      Except.ok ((-1, -1), (search Docsync.init exHdr0).2) :=
  ⟨by decide, claim_C10_endif_line0 exHdr0 Docsync.init (by decide) (by decide)
    (fun j hj1 hj2 => by
      have h2 : (splitOnNl exHdr0.toList).length = 2 := by decide
      rw [h2] at hj2
      have hj : j = 1 := by omega
      subst hj
      decide)⟩

/-- C4: `docexport` renders each recorded block with `docimport` replaced
by `docexport` and a trailing `;`, joins the blocks with a blank line, and
returns the split lines for output type `lines`, else the joined string. -/
theorem claim_C4_render (st : Docsync) (fs : List Func) (h : st.funcs = some fs)
    (ot : String) :
    docexport st "lines" = Except.ok (DocOut.lines
      ((splitOnNl (joinWith nlnl (fs.map docexportItem))).map String.mk)) ∧
    (ot ≠ "lines" → docexport st ot = Except.ok (DocOut.str
      (String.mk (joinWith nlnl (fs.map docexportItem))))) ∧
    (∀ f : Func, docexportItem f =
      replaceAll docimportLit docexportLit f.substring.toList ++ [';']) := by
  refine ⟨?_, fun hne => ?_, fun f => rfl⟩
  · simp [docexport, h]
  · simp [docexport, h, hne]

/-- Witness for C4 on the session produced by scanning `exA`. -/
theorem claim_C4_witness :
    (search Docsync.init exA).2.funcs = some (findAll exA.toList) ∧
    docexport (search Docsync.init exA).2 "lines" = Except.ok (DocOut.lines
      ((splitOnNl (joinWith nlnl ((findAll exA.toList).map docexportItem))).map
        String.mk)) :=
  ⟨rfl, (claim_C4_render (search Docsync.init exA).2 (findAll exA.toList) rfl
    "joined").1⟩

/-- C8: the `lines` output joined with a line feed reconstructs the
`joined` output exactly. -/
theorem claim_C8_roundtrip (st : Docsync) (fs : List Func) (h : st.funcs = some fs) :
    docexport st "joined" = Except.ok (DocOut.str (joinedOf fs)) ∧
    docexport st "lines" = Except.ok (DocOut.lines (linesOf fs)) ∧
    String.mk (joinWith ['\n'] ((linesOf fs).map String.toList)) = joinedOf fs := by
  refine ⟨?_, ?_, ?_⟩
  · simp [docexport, h, joinedOf]
  · simp [docexport, h, linesOf]
  · unfold linesOf joinedOf
    rw [List.map_map]
    have hid : (String.toList ∘ String.mk) = id := funext toList_mk
    rw [hid, List.map_id, join_split]

/-- Witness for C8 on the session produced by scanning `exA`. -/
theorem claim_C8_witness :
    (search Docsync.init exA).2.funcs = some (findAll exA.toList) ∧
    String.mk (joinWith ['\n'] ((linesOf (findAll exA.toList)).map String.toList)) =
      joinedOf (findAll exA.toList) :=
  ⟨rfl, (claim_C8_roundtrip (search Docsync.init exA).2 (findAll exA.toList)
    rfl).2.2⟩

/-- C9: a record whose substring contains no `docimport` is rendered
unchanged except for the appended `;`. -/
theorem claim_C9_idempotent (f : Func)
    (h : containsSub docimportLit f.substring.toList = false) :
    docexportItem f = f.substring.toList ++ [';'] := by
  unfold docexportItem
  rw [replaceAll_id _ _ _ h]

/-- Witness for C9 on a record already carrying the `docexport` tag. -/
theorem claim_C9_witness :
    containsSub docimportLit exGFunc.substring.toList = false ∧
    docexportItem exGFunc = exGFunc.substring.toList ++ [';'] :=
  ⟨by decide, claim_C9_idempotent exGFunc (by decide)⟩

/-- C5 counterexample: for the text `a` (which does not end in a line
feed), the offset one past the final character (offset 1) is not a
registered line-start key of the index. -/
theorem claim_C5_counterexample :
    lookupEntry (index_str "a") ("a".toList.length) = none := by decide

/-- C5 amended: the index has one entry per line of the split text, with
zero-based line numbers, line contents, key 0 for the first line and the
offset recurrence `key(i+1) = key(i) + len(line i) + 1`; the lookup at the
offset one past the final character resolves for every text that is empty
or ends with the line-feed delimiter. -/
theorem claim_C5_amended (text : String) :
    (index_str text).length = (splitOnNl text.toList).length ∧
    (∀ i, i < (index_str text).length →
      ((index_str text).getD i (0, 0, [])).2.1 = i ∧
      ((index_str text).getD i (0, 0, [])).2.2 = (splitOnNl text.toList).getD i []) ∧
    ((index_str text).getD 0 (0, 0, [])).1 = 0 ∧
    (∀ i, i + 1 < (index_str text).length →
      ((index_str text).getD (i + 1) (0, 0, [])).1 =
        ((index_str text).getD i (0, 0, [])).1 +
          ((splitOnNl text.toList).getD i []).length + 1) ∧
    ((text.toList = [] ∨ text.toList.getLast? = some '\n') →
      lookupEntry (index_str text) text.toList.length ≠ none) := by
  simp only [index_str]
  have hlen := indexLines_length (splitOnNl text.toList) 0 0
  refine ⟨hlen, fun i hi => ?_, ?_, fun i hi => ?_, fun hend => ?_⟩
  · have hh := indexLines_getD (splitOnNl text.toList) 0 0 i (by rw [hlen] at hi; exact hi)
    exact ⟨by rw [hh.1]; omega, hh.2⟩
  · exact indexLines_key0 _ 0 0 (splitOnNl_ne_nil _)
  · exact indexLines_keyrec _ 0 0 i (by rw [hlen] at hi; exact hi)
  · apply lookupEntry_ne_none_of_mem_keys
    rw [indexLines_keys]
    simpa using idxKeys_cover text.toList 0 hend

/-- Witness for C5 (amended) on a header text ending in a line feed. -/
theorem claim_C5_witness :
    (exHdr.toList = [] ∨ exHdr.toList.getLast? = some '\n') ∧
    lookupEntry (index_str exHdr) exHdr.toList.length ≠ none ∧
    ((index_str exHdr).getD 1 (0, 0, [])).1 =
      ((index_str exHdr).getD 0 (0, 0, [])).1 +
        ((splitOnNl exHdr.toList).getD 0 []).length + 1 :=
  ⟨Or.inr (by decide), (claim_C5_amended exHdr).2.2.2.2 (Or.inr (by decide)),
   (claim_C5_amended exHdr).2.2.2.1 0 (by decide)⟩

/-- C6 counterexample: after a second scan on the same session, the
recorded start offset (0, from the first scan) differs from the first
record's start offset (1) of the most recent scan. -/
theorem claim_C6_counterexample :
    ((search (search Docsync.init exA).2 exB).2.funcs.getD []).map Func.span =
      [(1, 39)] ∧
    (search (search Docsync.init exA).2 exB).2.start = some 0 ∧
    ¬ (search (search Docsync.init exA).2 exB).2.start =
      some ((((search (search Docsync.init exA).2 exB).2.funcs.getD []).headD
        ⟨"", (0, 0), ""⟩).span.1) :=
  ⟨by decide, by decide, by decide⟩

/-- C6 amended: on a session whose start offset is still unset (e.g. a
fresh session), a scan that finds records sets the session's start offset
to the first record's start offset. -/
theorem claim_C6_amended (st : Docsync) (text : String) (h0 : st.start = none)
    (m0 : Func) (hm : (findAll text.toList).head? = some m0) :
    (search st text).2.start = some m0.span.1 := by
  show searchStart st.start (findAll text.toList) = some m0.span.1
  rw [h0]
  show ((findAll text.toList).head?).map (fun m => m.span.1) = some m0.span.1
  rw [hm]
  rfl

/-- Witness for C6 (amended) on a fresh session scanning `exA`. -/
theorem claim_C6_witness :
    Docsync.init.start = none ∧
    (search Docsync.init exA).2.start = some ((⟨"f", (0, 38), exA⟩ : Func).span.1) :=
  ⟨rfl, claim_C6_amended Docsync.init exA rfl ⟨"f", (0, 38), exA⟩ (by decide)⟩

/-- C7 counterexample: rendering on a freshly constructed session fails
(Python raises `AttributeError`, since `funcs` is only assigned by
`search`). -/
theorem claim_C7_counterexample :
    docexport Docsync.init "lines" = Except.error () := rfl

/-- C7 amended: `search` and `search_hdr` are total (the `search_hdr`
error branch is unreachable), a scan always initialises the record list,
and `docexport` is total on every session whose record list has been
initialised by a scan. -/
theorem claim_C7_amended (st : Docsync) (text : String) (ot : String) :
    isOkE (search_hdr st text) = true ∧
    (search st text).2.funcs = some (findAll text.toList) ∧
    (∀ fs, st.funcs = some fs → isOkE (docexport st ot) = true) := by
  refine ⟨?_, rfl, fun fs hfs => ?_⟩
  · by_cases h : (search st text).1 ≠ 0
    · have hne : findAll text.toList ≠ [] := by
        intro hnil
        exact h (by rw [search_count, hnil]; rfl)
      obtain ⟨s, e, hs, he⟩ := search_offsets_set st text hne
      rw [search_hdr_pos st text s e h hs he]
      rfl
    · rw [search_hdr_zero st text (by omega)]
      rfl
  · simp only [docexport, hfs]
    by_cases hot : ot = "lines"
    · rw [if_pos hot]
      rfl
    · rw [if_neg hot]
      rfl

/-- Witness for C7 (amended) on the session produced by scanning `exA`. -/
theorem claim_C7_witness :
    (search Docsync.init exA).2.funcs = some (findAll exA.toList) ∧
    isOkE (docexport (search Docsync.init exA).2 "lines") = true :=
  ⟨rfl, (claim_C7_amended (search Docsync.init exA).2 exA "lines").2.2
    (findAll exA.toList) rfl⟩
